import Mathlib

/-!
Verification of the task-orchestration core of consul-terraform-sync.

This file shallowly embeds the Go sources:
* `templates/tftmpl` (`newHealthService`, `nonNullMap`) — health-service
  conversion to HCL-ready values;
* `controller/readonly.go` (`Init`, `Run`, `checkInspect`) — the read-only
  controller's bounded inspect pass;
* the ReadWrite controller loop, whose implementation file is not part of
  the provided sources (only its tests are); it is modelled from the spec.

Go `(value, error)` returns become `Except String α` / `Option String`
(`some msg` = error), nil-able Go maps/slices become `Option` of association
lists / lists, and the external watcher/resolver/driver collaborators become
explicit environment oracles indexed by loop iteration and task name.
Driver, template and event-store effects are recorded in explicit call logs
so that temporal claims ("X is never called after Y") are statements about
the log.
-/

set_option maxHeartbeats 1000000

namespace CTS

/-! ### templates/tftmpl data model -/

/-- Model of `cty.Value` restricted to the values `newHealthService`
manipulates for the `Namespace` field: the Go zero value (`cty.NilVal`),
`cty.NullVal(cty.String)`, and `cty.StringVal s`. -/
inductive CtyValue where
  | nilVal
  | nullString
  | stringVal (s : String)
deriving DecidableEq, Repr

/-- A Go `map[string]string`, which may be `nil` (`none`) or a concrete
association list (`some kvs`). -/
abbrev GoMap := Option (List (String × String))

/-- A Go `[]string`, which may be `nil` (`none`) or a concrete list. -/
abbrev GoStrings := Option (List String)

/-- The fields of `dep.HealthService` (from hashicorp/hcat) that
`newHealthService` reads. Nil-able maps and slices are `Option`s. -/
structure HealthServiceDep where
  ID : String
  Name : String
  Address : String
  Port : Int
  ServiceMeta : GoMap
  Tags : GoStrings
  Namespace : String
  Status : String
  Node : String
  NodeID : String
  NodeAddress : String
  NodeDatacenter : String
  NodeTaggedAddresses : GoMap
  NodeMeta : GoMap
deriving DecidableEq, Repr

/-- The `healthService` struct of `templates/tftmpl`. -/
structure healthService where
  ID : String
  Name : String
  Address : String
  Port : Int
  Meta : GoMap
  Tags : GoStrings
  Namespace : CtyValue
  Status : String
  Node : String
  NodeID : String
  NodeAddress : String
  NodeDatacenter : String
  NodeTaggedAddresses : GoMap
  NodeMeta : GoMap
deriving DecidableEq, Repr

/-- The Go zero value of `healthService`: empty strings, port 0, nil maps and
slices, and the zero `cty.Value` (`cty.NilVal`) for `Namespace`. -/
def healthService.zero : healthService :=
  { ID := "", Name := "", Address := "", Port := 0, Meta := none, Tags := none
    Namespace := CtyValue.nilVal, Status := "", Node := "", NodeID := ""
    NodeAddress := "", NodeDatacenter := "", NodeTaggedAddresses := none
    NodeMeta := none }

/-- Function `nonNullMap` of `templates/tftmpl`: replaces a nil map by an empty one. -/
def nonNullMap (m : GoMap) : GoMap :=
  match m with
  | none => some []
  | some v => some v

/-- Function `newHealthService` of `templates/tftmpl`: converts a (nil-able) pointer to
`dep.HealthService` into a `healthService`, null-ing the namespace when empty
and defaulting nil maps and the nil tag slice to empty ones. -/
def newHealthService (s : Option HealthServiceDep) : healthService :=
  match s with
  | none => healthService.zero
  | some s =>
    let nspace : CtyValue :=
      if s.Namespace ≠ "" then CtyValue.stringVal s.Namespace
      else CtyValue.nullString
    let tags : GoStrings :=
      match s.Tags with
      | none => some []
      | some t => some t
    { ID := s.ID
      Name := s.Name
      Address := s.Address
      Port := s.Port
      Meta := nonNullMap s.ServiceMeta
      Tags := tags
      Namespace := nspace
      Status := s.Status
      Node := s.Node
      NodeID := s.NodeID
      NodeAddress := s.NodeAddress
      NodeDatacenter := s.NodeDatacenter
      NodeTaggedAddresses := nonNullMap s.NodeTaggedAddresses
      NodeMeta := nonNullMap s.NodeMeta }

/-! ### ReadOnly controller (controller/readonly.go) -/

/-- Model of `hcat.ResolveEvent`: the result of one resolve step.
`Contents` is the uninterpreted byte payload handed to `Render`. -/
structure RenderEvent where
  Complete : Bool
  Contents : String
deriving DecidableEq, Repr

/-- The controller's `unit`. The Go struct also carries the template handle
and the Driver instance; both behave only through the external collaborators,
which this embedding represents as environment oracles keyed by the task
name (the spec's invariant: exactly one Unit per task, one Driver per Unit,
never shared). -/
structure unit where
  taskName : String
deriving DecidableEq, Repr

/-- Outcome of one blocking wait on the watch engine: the `select` in `Run`
either receives from `watcher.WaitCh(ctx)` (`ok` or `fail msg`) or observes
context cancellation (`cancel msg`, where `msg` is `ctx.Err()`). -/
inductive WaitOutcome where
  | ok
  | fail (msg : String)
  | cancel (msg : String)
deriving DecidableEq, Repr

/-- Environment of one ReadOnly run: the behaviour of the external resolver,
template render, driver `InspectTask`, and watch engine, indexed by outer
iteration number and task name. -/
structure ROEnv where
  resolve : Nat → String → Except String RenderEvent
  render : Nat → String → Except String String
  inspect : Nat → String → Option String
  wait : Nat → WaitOutcome

/-- One observable external call of the ReadOnly loop, tagged with the outer
iteration at which it happened and the task it concerned. -/
inductive Call where
  | resolveC (i : Nat) (task : String)
  | renderC (i : Nat) (task : String)
  | inspectC (i : Nat) (task : String)
  | waitC (i : Nat)
deriving DecidableEq, Repr

/-- The task a call concerns, if any. -/
def Call.task? : Call → Option String
  | .resolveC _ n => some n
  | .renderC _ n => some n
  | .inspectC _ n => some n
  | .waitC _ => none

/-- The outer iteration at which a call happened. -/
def Call.iter : Call → Nat
  | .resolveC i _ => i
  | .renderC i _ => i
  | .inspectC i _ => i
  | .waitC i => i

/-- Is this call `InspectTask` for task `n`? -/
def Call.isInspectOf (n : String) : Call → Bool
  | .inspectC _ m => m = n
  | _ => false

/-- Method `ReadOnly.checkInspect`: resolve the unit's template; on incomplete data
return `(false, nil)` without rendering or inspecting; on complete data
render, then call the driver's `InspectTask`; any failure is returned as an
error wrapping the task name. The second component is the log of external
calls made. -/
def checkInspect (env : ROEnv) (i : Nat) (u : unit) :
    Except String Bool × List Call :=
  match env.resolve i u.taskName with
  | .error e =>
      (.error ("error fetching template dependencies for task " ++
          u.taskName ++ ": " ++ e),
       [.resolveC i u.taskName])
  | .ok result =>
    if result.Complete then
      match env.render i u.taskName with
      | .error e =>
          (.error ("error rendering template for task " ++
              u.taskName ++ ": " ++ e),
           [.resolveC i u.taskName, .renderC i u.taskName])
      | .ok _ =>
        match env.inspect i u.taskName with
        | some e =>
            (.error ("could not apply changes for task " ++
                u.taskName ++ ": " ++ e),
             [.resolveC i u.taskName, .renderC i u.taskName,
              .inspectC i u.taskName])
        | none =>
            (.ok result.Complete,
             [.resolveC i u.taskName, .renderC i u.taskName,
              .inspectC i u.taskName])
    else
      (.ok result.Complete, [.resolveC i u.taskName])

/-- Result of the inner `for _, u := range ctrl.units` pass of `Run`:
either the first `checkInspect` error, or the final `done` flag; plus the
`completed` map (as updated so far) and the call log. -/
structure PassResult where
  res : Except String Bool
  completed : String → Bool
  log : List Call

/-- The inner pass of `Run` at outer iteration `i`: skip units already
completed, run `checkInspect` on the rest, record each unit's completeness
in `completed`, clear `done` on any incomplete unit, and return the first
error immediately. -/
def passAux (env : ROEnv) (i : Nat) :
    List unit → (String → Bool) → Bool → PassResult
  | [], completed, done => ⟨.ok done, completed, []⟩
  | u :: rest, completed, done =>
    if completed u.taskName then
      passAux env i rest completed done
    else
      match checkInspect env i u with
      | (.error e, log) => ⟨.error e, completed, log⟩
      | (.ok complete, log) =>
        let completed' := fun n =>
          if n = u.taskName then complete else completed n
        let done' := if !complete && done then false else done
        let r := passAux env i rest completed' done'
        ⟨r.res, r.completed, log ++ r.log⟩

/-- Outcome of `ReadOnly.Run`: success (`nil`), an error, or fuel exhaustion
of the model (the Go loop is unbounded; `diverge` is the model's artefact for
runs still going after the given number of outer iterations). -/
inductive RunOutcome where
  | ok
  | err (msg : String)
  | diverge
deriving DecidableEq, Repr

/-- Result of `ReadOnly.Run`: outcome, final `completed` map, number of outer
iterations started, and the log of external calls. -/
structure RunResult where
  outcome : RunOutcome
  completed : String → Bool
  passes : Nat
  log : List Call

/-- The outer loop of `ReadOnly.Run` starting at iteration `i`: run a pass;
return its error if any; return `nil` if all units are done; otherwise block
on the watch engine (returning a watcher error or `ctx.Err()` verbatim on
cancellation) and loop. -/
def runAux (env : ROEnv) (units : List unit) :
    (String → Bool) → Nat → Nat → RunResult
  | completed, i, 0 => ⟨.diverge, completed, i, []⟩
  | completed, i, fuel + 1 =>
    match passAux env i units completed true with
    | ⟨.error e, comp, log⟩ => ⟨.err e, comp, i + 1, log⟩
    | ⟨.ok done, comp, log⟩ =>
      if done then ⟨.ok, comp, i + 1, log⟩
      else
        match env.wait i with
        | .ok =>
          let r := runAux env units comp (i + 1) fuel
          ⟨r.outcome, r.completed, r.passes, log ++ .waitC i :: r.log⟩
        | .fail e => ⟨.err e, comp, i + 1, log ++ [.waitC i]⟩
        | .cancel e => ⟨.err e, comp, i + 1, log ++ [.waitC i]⟩

/-- Method `ReadOnly.Run`: start with an empty `completed` map at iteration 0,
bounded by `fuel` outer iterations. -/
def run (env : ROEnv) (units : List unit) (fuel : Nat) : RunResult :=
  runAux env units (fun _ => false) 0 fuel

/-- Method `ReadOnly.Init` sorts the units built by the base controller's `init` by
ascending task name (`sort.Slice` with `taskName <`); the base `init` itself
is outside the provided sources, so it is abstracted as its result. -/
def sortUnits (us : List unit) : List unit :=
  us.insertionSort (fun a b => a.taskName ≤ b.taskName)

/-- Method `ReadOnly.Init`: propagate a base-`init` failure, otherwise sort the
resulting units by task name. -/
def ReadOnlyInit (baseInit : Except String (List unit)) :
    Except String (List unit) :=
  match baseInit with
  | .error e => .error e
  | .ok us => .ok (sortUnits us)

/-! ### ReadWrite controller (modelled from the spec)

The ReadWrite controller's implementation file is not among the provided
sources — only its tests are. The per-unit loop below is modelled from the
spec, §4.5 (Resolving → Rendering → Converging, one Event per completed
Converging attempt, the error channel) together with §4.2 (failures wrapped
with the task name) and §7 (per-cycle errors are recoverable; cancellation
propagated verbatim). -/

/-- Environment of one ReadWrite unit's loop, indexed by cycle number:
resolver, render, `Driver.InitWork`, `Driver.ApplyWork` (`some msg` =
error), and the wait step (`some msg` = context cancelled with `ctx.Err()`
message `msg`, `none` = a new change arrived). -/
structure RWEnv where
  resolve : Nat → Except String RenderEvent
  render : Nat → Except String String
  initWork : Nat → Option String
  applyWork : Nat → Option String
  wait : Nat → Option String

/-- One value emitted on the shared error channel: `nil` or an error. -/
inductive Emission where
  | nilEmit
  | errEmit (msg : String)
deriving DecidableEq, Repr

/-- An Event Store entry: task name, start time (modelled as the cycle
number), success flag, and the error message on failure. -/
structure Event where
  taskName : String
  start : Nat
  success : Bool
  errorMessage : Option String
deriving DecidableEq, Repr

/-- One observable external call of a ReadWrite cycle. -/
inductive RWCall where
  | resolveC
  | renderC
  | initWorkC
  | applyWorkC
  | waitC
deriving DecidableEq, Repr

/-- Result of one ReadWrite cycle: emissions on the shared error channel
(`[]` or one element), Events appended to the Event Store, and the log of
external calls made, in order. -/
structure CycleResult where
  emissions : List Emission
  events : List Event
  calls : List RWCall
deriving DecidableEq, Repr

/-- Modelled from the spec: one cycle of the ReadWrite per-unit loop (the
implementation file is missing from the sources). Resolving: a resolver
error is emitted wrapped with the task name, and an incomplete result skips
straight to the wait with nothing emitted and no Event. Rendering: a render
error is emitted wrapped with the task name, no Event. Converging:
`InitWork`, then `ApplyWork` only if `InitWork` succeeded; exactly one Event
per Converging attempt, `success` true iff both succeeded; an apply failure
is emitted as `"could not apply: <message>"`, and full success emits `nil`. -/
def rwCycle (env : RWEnv) (t : String) (i : Nat) : CycleResult :=
  match env.resolve i with
  | .error e =>
      ⟨[.errEmit (t ++ ": " ++ e)], [], [.resolveC]⟩
  | .ok ev =>
    if ev.Complete then
      match env.render i with
      | .error e =>
          ⟨[.errEmit (t ++ ": " ++ e)], [], [.resolveC, .renderC]⟩
      | .ok _ =>
        match env.initWork i with
        | some e =>
            ⟨[.errEmit (t ++ ": " ++ e)],
             [⟨t, i, false, some e⟩],
             [.resolveC, .renderC, .initWorkC]⟩
        | none =>
          match env.applyWork i with
          | some e =>
              ⟨[.errEmit ("could not apply: " ++ e)],
               [⟨t, i, false, some e⟩],
               [.resolveC, .renderC, .initWorkC, .applyWorkC]⟩
          | none =>
              ⟨[.nilEmit],
               [⟨t, i, true, none⟩],
               [.resolveC, .renderC, .initWorkC, .applyWorkC]⟩
    else
      ⟨[], [], [.resolveC]⟩

/-- Result of a ReadWrite unit's loop: channel emissions, Events, call log,
and `exitMsg`: `some msg` when the loop exited at a cancelled wait emitting
the cancellation error `msg` verbatim, `none` when the model's fuel ran out
(the real loop is unbounded). -/
structure LoopResult where
  emissions : List Emission
  events : List Event
  calls : List RWCall
  exitMsg : Option String
deriving DecidableEq, Repr

/-- Modelled from the spec: the ReadWrite per-unit loop starting at cycle
`i` — run a cycle, then wait on the watch engine; on cancellation exit
emitting the cancellation error verbatim, otherwise continue with the next
cycle. Per-cycle errors never terminate the loop. -/
def rwLoop (env : RWEnv) (t : String) (i : Nat) : Nat → LoopResult
  | 0 => ⟨[], [], [], none⟩
  | fuel + 1 =>
    let c := rwCycle env t i
    match env.wait i with
    | some msg =>
        ⟨c.emissions, c.events, c.calls ++ [.waitC], some msg⟩
    | none =>
      let r := rwLoop env t (i + 1) fuel
      ⟨c.emissions ++ r.emissions, c.events ++ r.events,
       c.calls ++ .waitC :: r.calls, r.exitMsg⟩

/-! ### Theorems -/

/-- C10: `newHealthService` is total: a nil input yields the zero
`healthService`; for any non-nil input the `Meta`, `Tags`,
`NodeTaggedAddresses` and `NodeMeta` fields are never nil, and `Namespace`
is the null cty string exactly when the input namespace is empty. -/
theorem newHealthService_total :
    newHealthService none = healthService.zero ∧
    ∀ s : HealthServiceDep,
      (newHealthService (some s)).Meta.isSome = true ∧
      (newHealthService (some s)).Tags.isSome = true ∧
      (newHealthService (some s)).NodeTaggedAddresses.isSome = true ∧
      (newHealthService (some s)).NodeMeta.isSome = true ∧
      ((newHealthService (some s)).Namespace = CtyValue.nullString ↔
        s.Namespace = "") := by
  refine ⟨rfl, fun s => ⟨?_, ?_, ?_, ?_, ?_⟩⟩
  · simp only [newHealthService, nonNullMap]
    cases s.ServiceMeta <;> rfl
  · simp only [newHealthService]
    cases s.Tags <;> rfl
  · simp only [newHealthService, nonNullMap]
    cases s.NodeTaggedAddresses <;> rfl
  · simp only [newHealthService, nonNullMap]
    cases s.NodeMeta <;> rfl
  · simp only [newHealthService]
    by_cases h : s.Namespace = "" <;> simp [h]

/-- A sample `dep.HealthService` with a nil meta map, nil tags and an empty
namespace, used to witness `newHealthService_total`. -/
def sampleDep : HealthServiceDep :=
  { ID := "web-1", Name := "web", Address := "10.0.0.1", Port := 8080
    ServiceMeta := none, Tags := none, Namespace := "", Status := "passing"
    Node := "node1", NodeID := "n1", NodeAddress := "10.0.0.2"
    NodeDatacenter := "dc1", NodeTaggedAddresses := none, NodeMeta := none }

/-- Witness for C10 at a concrete health service. -/
theorem newHealthService_total_witness :
    (newHealthService (some sampleDep)).Meta.isSome = true ∧
    ((newHealthService (some sampleDep)).Namespace = CtyValue.nullString ↔
      sampleDep.Namespace = "") :=
  ⟨(newHealthService_total.2 sampleDep).1,
   (newHealthService_total.2 sampleDep).2.2.2.2⟩

instance : IsTotal unit (fun a b => a.taskName ≤ b.taskName) :=
  ⟨fun a b => le_total a.taskName b.taskName⟩

instance : IsTrans unit (fun a b => a.taskName ≤ b.taskName) :=
  ⟨fun _ _ _ h₁ h₂ => le_trans h₁ h₂⟩

/-- Two sorted lists of units that are permutations of each other and whose
task names are duplicate-free are equal. -/
theorem sorted_perm_nodup_eq :
    ∀ (l₁ l₂ : List unit), l₁.Perm l₂ →
      l₁.Sorted (fun a b => a.taskName ≤ b.taskName) →
      l₂.Sorted (fun a b => a.taskName ≤ b.taskName) →
      (l₁.map unit.taskName).Nodup → l₁ = l₂ := by
  intro l₁
  induction l₁ with
  | nil => intro l₂ hp _ _ _; exact (hp.symm.eq_nil).symm
  | cons a t₁ ih =>
    intro l₂ hp hs₁ hs₂ hnd
    cases l₂ with
    | nil => exact absurd hp.eq_nil (by simp)
    | cons b t₂ =>
      have hab : a = b := by
        have hamem : a ∈ b :: t₂ := hp.subset (List.mem_cons_self a t₁)
        have hbmem : b ∈ a :: t₁ := hp.symm.subset (List.mem_cons_self b t₂)
        rcases List.mem_cons.mp hbmem with hba | hbt
        · exact hba.symm
        rcases List.mem_cons.mp hamem with hab | hat
        · exact hab
        have h₁ : a.taskName ≤ b.taskName :=
          (List.sorted_cons.mp hs₁).1 b hbt
        have h₂ : b.taskName ≤ a.taskName :=
          (List.sorted_cons.mp hs₂).1 a hat
        have heq : a.taskName = b.taskName := le_antisymm h₁ h₂
        have : a.taskName ∉ t₁.map unit.taskName :=
          (List.nodup_cons.mp hnd).1
        exact absurd (heq ▸ List.mem_map_of_mem unit.taskName hbt) this
      subst hab
      have ht : t₁ = t₂ :=
        ih t₂ hp.cons_inv (List.sorted_cons.mp hs₁).2
          (List.sorted_cons.mp hs₂).2 (List.nodup_cons.mp hnd).2
      rw [ht]

/-- C9: a successful `ReadOnly.Init` leaves the unit slice sorted in
ascending lexicographic task-name order — a permutation of the units the
base controller built — and (second conjunct) for duplicate-free task names
the sorted slice is the same for every configuration order, so `Run` visits
units in a deterministic order. -/
theorem ReadOnlyInit_sorted :
    (∀ (baseInit : Except String (List unit)) (us : List unit),
      ReadOnlyInit baseInit = .ok us →
      us.Sorted (fun a b => a.taskName ≤ b.taskName) ∧
      ∃ us₀, baseInit = .ok us₀ ∧ us.Perm us₀) ∧
    (∀ us₀ us₁ : List unit, us₀.Perm us₁ →
      (us₀.map unit.taskName).Nodup → sortUnits us₀ = sortUnits us₁) := by
  constructor
  · intro baseInit us h
    cases baseInit with
    | error e => exact absurd h (by simp [ReadOnlyInit])
    | ok us₀ =>
      have hus : us = sortUnits us₀ := by
        simpa [ReadOnlyInit] using h.symm
      subst hus
      exact ⟨List.sorted_insertionSort _ us₀,
        us₀, rfl, List.perm_insertionSort _ us₀⟩
  · intro us₀ us₁ hp hnd
    have hs₀ := List.sorted_insertionSort
      (fun a b : unit => a.taskName ≤ b.taskName) us₀
    have hs₁ := List.sorted_insertionSort
      (fun a b : unit => a.taskName ≤ b.taskName) us₁
    have hp' : (sortUnits us₀).Perm (sortUnits us₁) :=
      ((List.perm_insertionSort _ us₀).trans hp).trans
        (List.perm_insertionSort _ us₁).symm
    have hnd' : ((sortUnits us₀).map unit.taskName).Nodup :=
      (((List.perm_insertionSort _ us₀).map unit.taskName).nodup_iff).mpr hnd
    exact sorted_perm_nodup_eq _ _ hp' hs₀ hs₁ hnd'

/-- Witness for C9: initializing with units named "beta", "alpha" yields a
slice sorted by task name. -/
theorem ReadOnlyInit_sorted_witness :
    (sortUnits [⟨"beta"⟩, ⟨"alpha"⟩]).Sorted
      (fun a b => a.taskName ≤ b.taskName) :=
  (ReadOnlyInit_sorted.1 (.ok [⟨"beta"⟩, ⟨"alpha"⟩])
    (sortUnits [⟨"beta"⟩, ⟨"alpha"⟩]) rfl).1

/-- A resolver error makes the cycle emit the wrapped error and stop. -/
theorem rwCycle_resolveErr {env : RWEnv} {i : Nat} {e : String} (t : String)
    (h : env.resolve i = .error e) :
    rwCycle env t i = ⟨[.errEmit (t ++ ": " ++ e)], [], [.resolveC]⟩ := by
  simp [rwCycle, h]

/-- An incomplete resolution makes the cycle skip straight to the wait. -/
theorem rwCycle_incomplete {env : RWEnv} {i : Nat} {ev : RenderEvent}
    (t : String) (h : env.resolve i = .ok ev) (hc : ev.Complete = false) :
    rwCycle env t i = ⟨[], [], [.resolveC]⟩ := by
  simp [rwCycle, h, hc]

/-- A render error makes the cycle emit the wrapped error; no Event. -/
theorem rwCycle_renderErr {env : RWEnv} {i : Nat} {ev : RenderEvent}
    {e : String} (t : String) (h : env.resolve i = .ok ev)
    (hc : ev.Complete = true) (hren : env.render i = .error e) :
    rwCycle env t i =
      ⟨[.errEmit (t ++ ": " ++ e)], [], [.resolveC, .renderC]⟩ := by
  simp [rwCycle, h, hc, hren]

/-- An `InitWork` failure records a failed Event and skips `ApplyWork`. -/
theorem rwCycle_initFail {env : RWEnv} {i : Nat} {ev : RenderEvent}
    {s e : String} (t : String) (h : env.resolve i = .ok ev)
    (hc : ev.Complete = true) (hren : env.render i = .ok s)
    (hiw : env.initWork i = some e) :
    rwCycle env t i =
      ⟨[.errEmit (t ++ ": " ++ e)], [⟨t, i, false, some e⟩],
       [.resolveC, .renderC, .initWorkC]⟩ := by
  simp [rwCycle, h, hc, hren, hiw]

/-- An `ApplyWork` failure records a failed Event and emits
`"could not apply: <message>"`. -/
theorem rwCycle_applyFail {env : RWEnv} {i : Nat} {ev : RenderEvent}
    {s e : String} (t : String) (h : env.resolve i = .ok ev)
    (hc : ev.Complete = true) (hren : env.render i = .ok s)
    (hiw : env.initWork i = none) (hap : env.applyWork i = some e) :
    rwCycle env t i =
      ⟨[.errEmit ("could not apply: " ++ e)], [⟨t, i, false, some e⟩],
       [.resolveC, .renderC, .initWorkC, .applyWorkC]⟩ := by
  simp [rwCycle, h, hc, hren, hiw, hap]

/-- A fully successful cycle records a successful Event and emits nil. -/
theorem rwCycle_ok {env : RWEnv} {i : Nat} {ev : RenderEvent} {s : String}
    (t : String) (h : env.resolve i = .ok ev) (hc : ev.Complete = true)
    (hren : env.render i = .ok s) (hiw : env.initWork i = none)
    (hap : env.applyWork i = none) :
    rwCycle env t i =
      ⟨[.nilEmit], [⟨t, i, true, none⟩],
       [.resolveC, .renderC, .initWorkC, .applyWorkC]⟩ := by
  simp [rwCycle, h, hc, hren, hiw, hap]

/-- Unfolding of `rwLoop` when the wait observes cancellation: the loop
stops after the current cycle, emitting the cancellation error verbatim. -/
theorem rwLoop_cancel {env : RWEnv} {i : Nat} {msg : String}
    (t : String) (fuel : Nat) (h : env.wait i = some msg) :
    rwLoop env t i (fuel + 1) =
      ⟨(rwCycle env t i).emissions, (rwCycle env t i).events,
       (rwCycle env t i).calls ++ [.waitC], some msg⟩ := by
  simp only [rwLoop, h]

/-- Unfolding of `rwLoop` when the wait sees a new change: the loop
continues into the next cycle. -/
theorem rwLoop_step {env : RWEnv} {i : Nat} (t : String) (fuel : Nat)
    (h : env.wait i = none) :
    rwLoop env t i (fuel + 1) =
      ⟨(rwCycle env t i).emissions ++ (rwLoop env t (i + 1) fuel).emissions,
       (rwCycle env t i).events ++ (rwLoop env t (i + 1) fuel).events,
       (rwCycle env t i).calls ++
         RWCall.waitC :: (rwLoop env t (i + 1) fuel).calls,
       (rwLoop env t (i + 1) fuel).exitMsg⟩ := by
  simp only [rwLoop, h]

/-- C3: in a ReadWrite cycle, `ApplyWork` is called only when `InitWork` was
called and succeeded in that same cycle; when `InitWork` fails, `ApplyWork`
is not called in that cycle. (spec-modelled: the ReadWrite implementation is
not among the sources.) -/
theorem initWork_before_applyWork :
    ∀ (env : RWEnv) (t : String) (i : Nat),
      (env.initWork i ≠ none →
        RWCall.applyWorkC ∉ (rwCycle env t i).calls) ∧
      (RWCall.applyWorkC ∈ (rwCycle env t i).calls →
        env.initWork i = none ∧
        RWCall.initWorkC ∈ (rwCycle env t i).calls) := by
  intro env t i
  cases hr : env.resolve i with
  | error e =>
    rw [rwCycle_resolveErr t hr]
    exact ⟨fun _ => by simp, fun hm => absurd hm (by simp)⟩
  | ok ev =>
    cases hc : ev.Complete with
    | false =>
      rw [rwCycle_incomplete t hr hc]
      exact ⟨fun _ => by simp, fun hm => absurd hm (by simp)⟩
    | true =>
      cases hren : env.render i with
      | error e =>
        rw [rwCycle_renderErr t hr hc hren]
        exact ⟨fun _ => by simp, fun hm => absurd hm (by simp)⟩
      | ok s =>
        cases hiw : env.initWork i with
        | some e =>
          rw [rwCycle_initFail t hr hc hren hiw]
          exact ⟨fun _ => by simp, fun hm => absurd hm (by simp)⟩
        | none =>
          cases hap : env.applyWork i with
          | some e =>
            rw [rwCycle_applyFail t hr hc hren hiw hap]
            exact ⟨fun hne => absurd rfl hne, fun _ => ⟨rfl, by simp⟩⟩
          | none =>
            rw [rwCycle_ok t hr hc hren hiw hap]
            exact ⟨fun hne => absurd rfl hne, fun _ => ⟨rfl, by simp⟩⟩

/-- Witness for C3: with a failing `InitWork`, the cycle makes no
`ApplyWork` call. -/
theorem initWork_before_applyWork_witness :
    RWCall.applyWorkC ∉
      (rwCycle
        { resolve := fun _ => .ok ⟨true, "data"⟩
          render := fun _ => .ok "rendered"
          initWork := fun _ => some "init failed"
          applyWork := fun _ => none
          wait := fun _ => none } "task-a" 0).calls :=
  (initWork_before_applyWork
    { resolve := fun _ => .ok ⟨true, "data"⟩
      render := fun _ => .ok "rendered"
      initWork := fun _ => some "init failed"
      applyWork := fun _ => none
      wait := fun _ => none } "task-a" 0).1 (by simp)

/-- C8: a ReadWrite cycle appends exactly one Event when it reaches the
Converging step (resolve complete and render succeeded), with `success` true
iff both `InitWork` and `ApplyWork` succeeded; an incomplete resolution
appends no Event; and the loop's event history is the cycle's events
followed by the continuation's. (spec-modelled.) -/
theorem event_per_converging_cycle :
    ∀ (env : RWEnv) (t : String) (i : Nat),
      ((∃ ev, env.resolve i = .ok ev ∧ ev.Complete = true) →
        (∃ s, env.render i = .ok s) →
        (rwCycle env t i).events.length = 1 ∧
        ∀ e ∈ (rwCycle env t i).events,
          (e.success = true ↔
            env.initWork i = none ∧ env.applyWork i = none)) ∧
      (∀ ev, env.resolve i = .ok ev → ev.Complete = false →
        (rwCycle env t i).events = []) ∧
      (∀ fuel, (rwLoop env t i (fuel + 1)).events =
        (rwCycle env t i).events ++
          (match env.wait i with
           | some _ => []
           | none => (rwLoop env t (i + 1) fuel).events)) := by
  intro env t i
  refine ⟨?_, ?_, ?_⟩
  · rintro ⟨ev, hr, hc⟩ ⟨s, hren⟩
    cases hiw : env.initWork i with
    | some e =>
      rw [rwCycle_initFail t hr hc hren hiw]
      simp [hiw]
    | none =>
      cases hap : env.applyWork i with
      | some e =>
        rw [rwCycle_applyFail t hr hc hren hiw hap]
        simp [hiw, hap]
      | none =>
        rw [rwCycle_ok t hr hc hren hiw hap]
        simp [hiw, hap]
  · intro ev hr hc
    rw [rwCycle_incomplete t hr hc]
  · intro fuel
    cases hw : env.wait i with
    | some msg => rw [rwLoop_cancel t fuel hw]; simp
    | none => rw [rwLoop_step t fuel hw]

/-- Witness for C8 at a concrete environment whose `ApplyWork` fails: the
cycle records exactly one Event and it is unsuccessful. -/
theorem event_per_converging_cycle_witness :
    (rwCycle
      { resolve := fun _ => .ok ⟨true, "data"⟩
        render := fun _ => .ok "rendered"
        initWork := fun _ => none
        applyWork := fun _ => some "boom"
        wait := fun _ => none } "task-a" 0).events.length = 1 :=
  ((event_per_converging_cycle
    { resolve := fun _ => .ok ⟨true, "data"⟩
      render := fun _ => .ok "rendered"
      initWork := fun _ => none
      applyWork := fun _ => some "boom"
      wait := fun _ => none } "task-a" 0).1
    ⟨⟨true, "data"⟩, rfl, rfl⟩ ⟨"rendered", rfl⟩).1

/-- C4: a ReadWrite apply failure is emitted on the shared channel as
`"could not apply: <message>"`, records a failed Event, and does not
terminate the unit's loop — the loop proceeds through the wait into the next
cycle, and if that cycle fully succeeds a successful Event follows the
failed one. (spec-modelled.) -/
theorem apply_failure_recoverable :
    ∀ (env : RWEnv) (t : String) (i : Nat) (msg : String) (fuel : Nat),
      (∃ ev, env.resolve i = .ok ev ∧ ev.Complete = true) →
      (∃ s, env.render i = .ok s) →
      env.initWork i = none →
      env.applyWork i = some msg →
      env.wait i = none →
      (rwCycle env t i).emissions =
        [.errEmit ("could not apply: " ++ msg)] ∧
      (rwCycle env t i).events = [⟨t, i, false, some msg⟩] ∧
      (rwLoop env t i (fuel + 1)).exitMsg =
        (rwLoop env t (i + 1) fuel).exitMsg ∧
      (rwLoop env t i (fuel + 1)).calls =
        (rwCycle env t i).calls ++
          RWCall.waitC :: (rwLoop env t (i + 1) fuel).calls ∧
      ((∃ ev, env.resolve (i + 1) = .ok ev ∧ ev.Complete = true) →
        (∃ s, env.render (i + 1) = .ok s) →
        env.initWork (i + 1) = none →
        env.applyWork (i + 1) = none →
        (rwLoop env t i (fuel + 2)).events =
          ⟨t, i, false, some msg⟩ :: Event.mk t (i + 1) true none ::
            (match env.wait (i + 1) with
             | some _ => []
             | none => (rwLoop env t (i + 2) fuel).events)) := by
  rintro env t i msg fuel ⟨ev, hr, hc⟩ ⟨s, hren⟩ hiw hap hw
  have hcyc := rwCycle_applyFail (e := msg) t hr hc hren hiw hap
  refine ⟨by rw [hcyc], by rw [hcyc], ?_, ?_, ?_⟩
  · rw [rwLoop_step t fuel hw]
  · rw [rwLoop_step t fuel hw]
  · rintro ⟨ev', hr', hc'⟩ ⟨s', hren'⟩ hiw' hap'
    have hcyc' := rwCycle_ok (s := s') t hr' hc' hren' hiw' hap'
    have h1 : fuel + 2 = (fuel + 1) + 1 := rfl
    rw [h1, rwLoop_step t (fuel + 1) hw]
    cases hw' : env.wait (i + 1) with
    | some m =>
      rw [rwLoop_cancel t fuel hw', hcyc, hcyc']
      simp
    | none =>
      rw [rwLoop_step t fuel hw', hcyc, hcyc']
      simp [show i + 1 + 1 = i + 2 from rfl]

/-- A concrete ReadWrite environment whose apply fails at cycle 0 with
message "tf exit 1" and succeeds from cycle 1 on. -/
def rwFlakyEnv : RWEnv :=
  { resolve := fun _ => .ok ⟨true, "data"⟩
    render := fun _ => .ok "rendered"
    initWork := fun _ => none
    applyWork := fun i => if i = 0 then some "tf exit 1" else none
    wait := fun _ => none }

/-- Witness for C4: the flaky environment's first cycle emits the wrapped
apply error. -/
theorem apply_failure_recoverable_witness :
    (rwCycle rwFlakyEnv "task-a" 0).emissions =
      [.errEmit ("could not apply: " ++ "tf exit 1")] :=
  (apply_failure_recoverable rwFlakyEnv "task-a" 0 "tf exit 1" 0
    ⟨⟨true, "data"⟩, rfl, rfl⟩ ⟨"rendered", rfl⟩ rfl rfl rfl).1

/-- Is this call a wait on the watch engine? -/
def Call.isWait : Call → Bool
  | .waitC _ => true
  | _ => false

/-- A resolver error aborts `checkInspect` with the task name in the
message, after the resolve call only. -/
theorem checkInspect_resolveErr {env : ROEnv} {i : Nat} {e : String}
    (u : unit) (h : env.resolve i u.taskName = .error e) :
    checkInspect env i u =
      (.error ("error fetching template dependencies for task " ++
          u.taskName ++ ": " ++ e),
       [.resolveC i u.taskName]) := by
  simp [checkInspect, h]

/-- An incomplete resolution makes `checkInspect` return `(false, nil)`
after the resolve call only. -/
theorem checkInspect_incomplete {env : ROEnv} {i : Nat} {ev : RenderEvent}
    (u : unit) (h : env.resolve i u.taskName = .ok ev)
    (hc : ev.Complete = false) :
    checkInspect env i u = (.ok false, [.resolveC i u.taskName]) := by
  simp [checkInspect, h, hc]

/-- A render error aborts `checkInspect` with the task name in the
message. -/
theorem checkInspect_renderErr {env : ROEnv} {i : Nat} {ev : RenderEvent}
    {e : String} (u : unit) (h : env.resolve i u.taskName = .ok ev)
    (hc : ev.Complete = true) (hren : env.render i u.taskName = .error e) :
    checkInspect env i u =
      (.error ("error rendering template for task " ++
          u.taskName ++ ": " ++ e),
       [.resolveC i u.taskName, .renderC i u.taskName]) := by
  simp [checkInspect, h, hc, hren]

/-- An `InspectTask` error aborts `checkInspect` with the task name in the
message. -/
theorem checkInspect_inspectErr {env : ROEnv} {i : Nat} {ev : RenderEvent}
    {s e : String} (u : unit) (h : env.resolve i u.taskName = .ok ev)
    (hc : ev.Complete = true) (hren : env.render i u.taskName = .ok s)
    (hins : env.inspect i u.taskName = some e) :
    checkInspect env i u =
      (.error ("could not apply changes for task " ++
          u.taskName ++ ": " ++ e),
       [.resolveC i u.taskName, .renderC i u.taskName,
        .inspectC i u.taskName]) := by
  simp [checkInspect, h, hc, hren, hins]

/-- A fully successful `checkInspect` returns `(true, nil)` having
resolved, rendered and inspected. -/
theorem checkInspect_ok {env : ROEnv} {i : Nat} {ev : RenderEvent}
    {s : String} (u : unit) (h : env.resolve i u.taskName = .ok ev)
    (hc : ev.Complete = true) (hren : env.render i u.taskName = .ok s)
    (hins : env.inspect i u.taskName = none) :
    checkInspect env i u =
      (.ok true,
       [.resolveC i u.taskName, .renderC i u.taskName,
        .inspectC i u.taskName]) := by
  simp [checkInspect, h, hc, hren, hins]

/-- Every call `checkInspect` makes happens at its own iteration and
concerns its own unit's task. -/
theorem checkInspect_log_task {env : ROEnv} {i : Nat} {u : unit} :
    ∀ c ∈ (checkInspect env i u).2,
      c.iter = i ∧ c.task? = some u.taskName := by
  intro c hmem
  cases hr : env.resolve i u.taskName with
  | error e =>
    rw [checkInspect_resolveErr u hr] at hmem
    rcases List.mem_singleton.mp hmem with rfl
    exact ⟨rfl, rfl⟩
  | ok ev =>
    cases hc : ev.Complete with
    | false =>
      rw [checkInspect_incomplete u hr hc] at hmem
      rcases List.mem_singleton.mp hmem with rfl
      exact ⟨rfl, rfl⟩
    | true =>
      cases hren : env.render i u.taskName with
      | error e =>
        rw [checkInspect_renderErr u hr hc hren] at hmem
        rcases List.mem_cons.mp hmem with rfl | hmem
        · exact ⟨rfl, rfl⟩
        rcases List.mem_singleton.mp hmem with rfl
        exact ⟨rfl, rfl⟩
      | ok s =>
        cases hins : env.inspect i u.taskName with
        | some e =>
          rw [checkInspect_inspectErr u hr hc hren hins] at hmem
          rcases List.mem_cons.mp hmem with rfl | hmem
          · exact ⟨rfl, rfl⟩
          rcases List.mem_cons.mp hmem with rfl | hmem
          · exact ⟨rfl, rfl⟩
          rcases List.mem_singleton.mp hmem with rfl
          exact ⟨rfl, rfl⟩
        | none =>
          rw [checkInspect_ok u hr hc hren hins] at hmem
          rcases List.mem_cons.mp hmem with rfl | hmem
          · exact ⟨rfl, rfl⟩
          rcases List.mem_cons.mp hmem with rfl | hmem
          · exact ⟨rfl, rfl⟩
          rcases List.mem_singleton.mp hmem with rfl
          exact ⟨rfl, rfl⟩

/-- A render or inspect call appears in a `checkInspect` log only when that
unit's resolution was complete. -/
theorem checkInspect_render_complete {env : ROEnv} {i j : Nat} {u : unit}
    {n : String}
    (h : Call.renderC j n ∈ (checkInspect env i u).2 ∨
      Call.inspectC j n ∈ (checkInspect env i u).2) :
    ∃ ev, env.resolve i u.taskName = .ok ev ∧ ev.Complete = true := by
  cases hr : env.resolve i u.taskName with
  | error e =>
    rw [checkInspect_resolveErr u hr] at h
    rcases h with h | h <;> simp at h
  | ok ev =>
    cases hc : ev.Complete with
    | false =>
      rw [checkInspect_incomplete u hr hc] at h
      rcases h with h | h <;> simp at h
    | true => exact ⟨ev, rfl, hc⟩

/-- An inspect call appears in a `checkInspect` log only when the result is
`ok true` or an error. -/
theorem checkInspect_inspect_mem {env : ROEnv} {i j : Nat} {u : unit}
    {n : String} (h : Call.inspectC j n ∈ (checkInspect env i u).2) :
    (checkInspect env i u).1 = .ok true ∨
      ∃ e, (checkInspect env i u).1 = .error e := by
  cases hr : env.resolve i u.taskName with
  | error e =>
    rw [checkInspect_resolveErr u hr] at h ⊢
    simp at h
  | ok ev =>
    cases hc : ev.Complete with
    | false =>
      rw [checkInspect_incomplete u hr hc] at h ⊢
      simp at h
    | true =>
      cases hren : env.render i u.taskName with
      | error e =>
        rw [checkInspect_renderErr u hr hc hren] at h ⊢
        simp at h
      | ok s =>
        cases hins : env.inspect i u.taskName with
        | some e =>
          rw [checkInspect_inspectErr u hr hc hren hins]
          exact Or.inr ⟨_, rfl⟩
        | none =>
          rw [checkInspect_ok u hr hc hren hins]
          exact Or.inl rfl

/-- Every `checkInspect` error message contains the unit's task name. -/
theorem checkInspect_err_contains {env : ROEnv} {i : Nat} {u : unit}
    {e : String} (h : (checkInspect env i u).1 = .error e) :
    ∃ p q, e = p ++ u.taskName ++ q := by
  cases hr : env.resolve i u.taskName with
  | error e0 =>
    rw [checkInspect_resolveErr u hr] at h
    exact ⟨"error fetching template dependencies for task ", ": " ++ e0,
      by simpa [String.append_assoc] using (Except.error.inj h).symm⟩
  | ok ev =>
    cases hc : ev.Complete with
    | false =>
      rw [checkInspect_incomplete u hr hc] at h
      exact absurd h (by simp)
    | true =>
      cases hren : env.render i u.taskName with
      | error e0 =>
        rw [checkInspect_renderErr u hr hc hren] at h
        exact ⟨"error rendering template for task ", ": " ++ e0,
          by simpa [String.append_assoc] using (Except.error.inj h).symm⟩
      | ok s =>
        cases hins : env.inspect i u.taskName with
        | some e0 =>
          rw [checkInspect_inspectErr u hr hc hren hins] at h
          exact ⟨"could not apply changes for task ", ": " ++ e0,
            by simpa [String.append_assoc] using (Except.error.inj h).symm⟩
        | none =>
          rw [checkInspect_ok u hr hc hren hins] at h
          exact absurd h (by simp)

/-- At most one inspect call appears in a `checkInspect` log. -/
theorem checkInspect_count {env : ROEnv} {i : Nat} {u : unit} (n : String) :
    (checkInspect env i u).2.countP (Call.isInspectOf n) ≤ 1 := by
  cases hr : env.resolve i u.taskName with
  | error e => rw [checkInspect_resolveErr u hr]; simp [Call.isInspectOf]
  | ok ev =>
    cases hc : ev.Complete with
    | false =>
      rw [checkInspect_incomplete u hr hc]; simp [Call.isInspectOf]
    | true =>
      cases hren : env.render i u.taskName with
      | error e =>
        rw [checkInspect_renderErr u hr hc hren]
        simp [List.countP_cons, Call.isInspectOf]
      | ok s =>
        cases hins : env.inspect i u.taskName with
        | some e =>
          rw [checkInspect_inspectErr u hr hc hren hins]
          simp [List.countP_cons, Call.isInspectOf]
          split <;> simp
        | none =>
          rw [checkInspect_ok u hr hc hren hins]
          simp [List.countP_cons, Call.isInspectOf]
          split <;> simp

/-- Unfolding of `passAux` on the empty unit list. -/
theorem passAux_nil {env : ROEnv} {i : Nat} {completed : String → Bool}
    {done : Bool} : passAux env i [] completed done = ⟨.ok done, completed, []⟩ :=
  rfl

/-- Unfolding of `passAux` when the head unit is already completed: it is
skipped. -/
theorem passAux_cons_skip {env : ROEnv} {i : Nat} {u : unit}
    {rest : List unit} {completed : String → Bool} {done : Bool}
    (h : completed u.taskName = true) :
    passAux env i (u :: rest) completed done =
      passAux env i rest completed done := by
  simp [passAux, h]

/-- Unfolding of `passAux` when the head unit's `checkInspect` fails: the
pass stops there. -/
theorem passAux_cons_err {env : ROEnv} {i : Nat} {u : unit}
    {rest : List unit} {completed : String → Bool} {done : Bool}
    {e : String} {log : List Call}
    (hcu : completed u.taskName = false)
    (h : checkInspect env i u = (.error e, log)) :
    passAux env i (u :: rest) completed done = ⟨.error e, completed, log⟩ := by
  simp [passAux, hcu, h]

/-- Unfolding of `passAux` when the head unit's `checkInspect` succeeds:
record its completeness, update `done`, and continue with the rest. -/
theorem passAux_cons_ok {env : ROEnv} {i : Nat} {u : unit}
    {rest : List unit} {completed : String → Bool} {done : Bool}
    {complete : Bool} {log : List Call}
    (hcu : completed u.taskName = false)
    (h : checkInspect env i u = (.ok complete, log)) :
    passAux env i (u :: rest) completed done =
      ⟨(passAux env i rest
          (fun n => if n = u.taskName then complete else completed n)
          (if !complete && done then false else done)).res,
       (passAux env i rest
          (fun n => if n = u.taskName then complete else completed n)
          (if !complete && done then false else done)).completed,
       log ++ (passAux env i rest
          (fun n => if n = u.taskName then complete else completed n)
          (if !complete && done then false else done)).log⟩ := by
  simp [passAux, hcu, h]

/-- The `completed` map only grows during a pass: a task marked completed
stays completed. -/
theorem passAux_mono {env : ROEnv} {i : Nat} :
    ∀ (us : List unit) (completed : String → Bool) (done : Bool) (n : String),
      completed n = true →
      (passAux env i us completed done).completed n = true := by
  intro us
  induction us with
  | nil => intro completed done n h; exact h
  | cons u rest ih =>
    intro completed done n h
    cases hcu : completed u.taskName with
    | true => rw [passAux_cons_skip hcu]; exact ih completed done n h
    | false =>
      rcases hci : checkInspect env i u with ⟨res, log⟩
      cases res with
      | error e => rw [passAux_cons_err hcu hci]; exact h
      | ok complete =>
        rw [passAux_cons_ok hcu hci]
        refine ih _ _ n ?_
        by_cases hn : n = u.taskName
        · exact absurd (hn ▸ h) (by simp [hcu])
        · simp [hn, h]

/-- A pass does not touch the completion state of a task none of its units
carries. -/
theorem passAux_stable {env : ROEnv} {i : Nat} :
    ∀ (us : List unit) (completed : String → Bool) (done : Bool) (n : String),
      (∀ u ∈ us, u.taskName ≠ n) →
      (passAux env i us completed done).completed n = completed n := by
  intro us
  induction us with
  | nil => intro completed done n _; rfl
  | cons u rest ih =>
    intro completed done n hne
    have hun : u.taskName ≠ n := hne u (List.mem_cons_self u rest)
    have hrest : ∀ v ∈ rest, v.taskName ≠ n :=
      fun v hv => hne v (List.mem_cons_of_mem u hv)
    cases hcu : completed u.taskName with
    | true => rw [passAux_cons_skip hcu]; exact ih completed done n hrest
    | false =>
      rcases hci : checkInspect env i u with ⟨res, log⟩
      cases res with
      | error e => rw [passAux_cons_err hcu hci]
      | ok complete =>
        rw [passAux_cons_ok hcu hci]
        rw [ih _ _ n hrest]
        have hnu : ¬ n = u.taskName := fun h => hun h.symm
        simp [hnu]

/-- Every call a pass makes comes from `checkInspect` on one of its units. -/
theorem passAux_log_mem {env : ROEnv} {i : Nat} :
    ∀ (us : List unit) (completed : String → Bool) (done : Bool)
      (c : Call), c ∈ (passAux env i us completed done).log →
      ∃ u ∈ us, c ∈ (checkInspect env i u).2 := by
  intro us
  induction us with
  | nil => intro completed done c hc; exact absurd hc (by simp [passAux_nil])
  | cons u rest ih =>
    intro completed done c hc
    cases hcu : completed u.taskName with
    | true =>
      rw [passAux_cons_skip hcu] at hc
      rcases ih completed done c hc with ⟨v, hv, hcv⟩
      exact ⟨v, List.mem_cons_of_mem u hv, hcv⟩
    | false =>
      rcases hci : checkInspect env i u with ⟨res, log⟩
      cases res with
      | error e =>
        rw [passAux_cons_err hcu hci] at hc
        exact ⟨u, List.mem_cons_self u rest, by rw [hci]; exact hc⟩
      | ok complete =>
        rw [passAux_cons_ok hcu hci] at hc
        rcases List.mem_append.mp hc with hc | hc
        · exact ⟨u, List.mem_cons_self u rest, by rw [hci]; exact hc⟩
        · rcases ih _ _ c hc with ⟨v, hv, hcv⟩
          exact ⟨v, List.mem_cons_of_mem u hv, hcv⟩

/-- A pass makes no calls concerning a task already completed when it
starts. -/
theorem passAux_no_calls_completed {env : ROEnv} {i : Nat} :
    ∀ (us : List unit) (completed : String → Bool) (done : Bool)
      (n : String), completed n = true →
      ∀ c ∈ (passAux env i us completed done).log, c.task? ≠ some n := by
  intro us
  induction us with
  | nil => intro completed done n _ c hc; exact absurd hc (by simp [passAux_nil])
  | cons u rest ih =>
    intro completed done n hn c hc
    cases hcu : completed u.taskName with
    | true =>
      rw [passAux_cons_skip hcu] at hc
      exact ih completed done n hn c hc
    | false =>
      have hun : u.taskName ≠ n := fun h => by rw [h, hn] at hcu; cases hcu
      rcases hci : checkInspect env i u with ⟨res, log⟩
      cases res with
      | error e =>
        rw [passAux_cons_err hcu hci] at hc
        have := (checkInspect_log_task c (by rw [hci]; exact hc)).2
        rw [this]
        exact fun h => hun (Option.some.inj h)
      | ok complete =>
        rw [passAux_cons_ok hcu hci] at hc
        rcases List.mem_append.mp hc with hc | hc
        · have := (checkInspect_log_task c (by rw [hci]; exact hc)).2
          rw [this]
          exact fun h => hun (Option.some.inj h)
        · refine ih _ _ n ?_ c hc
          have hnu : ¬ n = u.taskName := fun h => hun h.symm
          simp [hnu, hn]

/-- Every call a pass makes happens at that pass's iteration. -/
theorem passAux_iter {env : ROEnv} {i : Nat} {us : List unit}
    {completed : String → Bool} {done : Bool} :
    ∀ c ∈ (passAux env i us completed done).log, c.iter = i := by
  intro c hc
  rcases passAux_log_mem us completed done c hc with ⟨u, _, hcu⟩
  exact (checkInspect_log_task c hcu).1

/-- A pass never waits on the watch engine. -/
theorem passAux_no_wait {env : ROEnv} {i : Nat} {us : List unit}
    {completed : String → Bool} {done : Bool} :
    ∀ c ∈ (passAux env i us completed done).log, c.isWait = false := by
  intro c hc
  rcases passAux_log_mem us completed done c hc with ⟨u, _, hcu⟩
  have := (checkInspect_log_task c hcu).2
  cases c with
  | waitC j => exact absurd this (by simp [Call.task?])
  | resolveC j n => rfl
  | renderC j n => rfl
  | inspectC j n => rfl

/-- If a pass finishes with `done = true`, it started with `done = true`
and every one of its units is completed afterwards. -/
theorem passAux_done_true {env : ROEnv} {i : Nat} :
    ∀ (us : List unit) (completed : String → Bool) (done : Bool),
      (passAux env i us completed done).res = .ok true →
      done = true ∧
      ∀ u ∈ us, (passAux env i us completed done).completed u.taskName = true := by
  intro us
  induction us with
  | nil =>
    intro completed done h
    rw [passAux_nil] at h ⊢
    exact ⟨Except.ok.inj h, by simp⟩
  | cons u rest ih =>
    intro completed done h
    cases hcu : completed u.taskName with
    | true =>
      rw [passAux_cons_skip hcu] at h ⊢
      rcases ih completed done h with ⟨hd, hall⟩
      refine ⟨hd, fun v hv => ?_⟩
      rcases List.mem_cons.mp hv with rfl | hv
      · exact passAux_mono rest completed done v.taskName hcu
      · exact hall v hv
    | false =>
      rcases hci : checkInspect env i u with ⟨res, log0⟩
      cases res with
      | error e =>
        rw [passAux_cons_err hcu hci] at h
        exact absurd h (by simp)
      | ok complete =>
        rw [passAux_cons_ok hcu hci] at h ⊢
        rcases ih _ _ h with ⟨hd', hall⟩
        have hdone : done = true := by
          cases done with
          | false => simp at hd'
          | true => rfl
        have hcomplete : complete = true := by
          cases complete with
          | false => rw [hdone] at hd'; simp at hd'
          | true => rfl
        subst hdone
        subst hcomplete
        refine ⟨rfl, fun v hv => ?_⟩
        rcases List.mem_cons.mp hv with rfl | hv
        · exact passAux_mono _ _ _ _ (by simp)
        · exact hall v hv

/-- If a pass starting from `done = true` finishes with `done = false` and
its units' task names are duplicate-free, some unit is uncompleted at the
end of the pass. -/
theorem passAux_done_false {env : ROEnv} {i : Nat} :
    ∀ (us : List unit) (completed : String → Bool) (done : Bool),
      (passAux env i us completed done).res = .ok false →
      (us.map unit.taskName).Nodup →
      done = false ∨
      ∃ u ∈ us, (passAux env i us completed done).completed u.taskName = false := by
  intro us
  induction us with
  | nil =>
    intro completed done h _
    rw [passAux_nil] at h
    exact Or.inl (Except.ok.inj h)
  | cons u rest ih =>
    intro completed done h hnd
    cases hcu : completed u.taskName with
    | true =>
      rw [passAux_cons_skip hcu] at h ⊢
      rcases ih completed done h (List.nodup_cons.mp hnd).2 with hd | ⟨v, hv, hvc⟩
      · exact Or.inl hd
      · exact Or.inr ⟨v, List.mem_cons_of_mem u hv, hvc⟩
    | false =>
      rcases hci : checkInspect env i u with ⟨res, log0⟩
      cases res with
      | error e =>
        rw [passAux_cons_err hcu hci] at h
        exact absurd h (by simp)
      | ok complete =>
        rw [passAux_cons_ok hcu hci] at h ⊢
        rcases ih _ _ h (List.nodup_cons.mp hnd).2 with hd' | ⟨v, hv, hvc⟩
        · cases done with
          | false => exact Or.inl rfl
          | true =>
            cases complete with
            | true => simp at hd'
            | false =>
              refine Or.inr ⟨u, List.mem_cons_self u rest, ?_⟩
              have hnotin : ∀ v ∈ rest, v.taskName ≠ u.taskName := by
                intro v hv hveq
                exact (List.nodup_cons.mp hnd).1
                  (hveq ▸ List.mem_map_of_mem unit.taskName hv)
              rw [passAux_stable rest _ _ u.taskName hnotin]
              simp
        · exact Or.inr ⟨v, List.mem_cons_of_mem u hv, hvc⟩

/-- If a pass fails, some unit is still uncompleted in the map it returns
(namely the failing one). -/
theorem passAux_err_incomplete {env : ROEnv} {i : Nat} :
    ∀ (us : List unit) (completed : String → Bool) (done : Bool) (e : String),
      (passAux env i us completed done).res = .error e →
      ∃ u ∈ us, (passAux env i us completed done).completed u.taskName = false := by
  intro us
  induction us with
  | nil =>
    intro completed done e h
    rw [passAux_nil] at h
    exact absurd h (by simp)
  | cons u rest ih =>
    intro completed done e h
    cases hcu : completed u.taskName with
    | true =>
      rw [passAux_cons_skip hcu] at h ⊢
      rcases ih completed done e h with ⟨v, hv, hvc⟩
      exact ⟨v, List.mem_cons_of_mem u hv, hvc⟩
    | false =>
      rcases hci : checkInspect env i u with ⟨res, log0⟩
      cases res with
      | error e0 =>
        rw [passAux_cons_err hcu hci] at h ⊢
        exact ⟨u, List.mem_cons_self u rest, hcu⟩
      | ok complete =>
        rw [passAux_cons_ok hcu hci] at h ⊢
        rcases ih _ _ e h with ⟨v, hv, hvc⟩
        exact ⟨v, List.mem_cons_of_mem u hv, hvc⟩

/-- Structure of a failing pass: the units split around a failing unit, the
error is that unit's `checkInspect` error, and every call the pass made
concerns either an earlier unit or the failing one — no later unit is
touched. -/
theorem passAux_err_struct {env : ROEnv} {i : Nat} :
    ∀ (us : List unit) (completed : String → Bool) (done : Bool) (e : String),
      (passAux env i us completed done).res = .error e →
      ∃ pre u post, us = pre ++ u :: post ∧
        (checkInspect env i u).1 = .error e ∧
        ∀ c ∈ (passAux env i us completed done).log,
          ∃ v ∈ pre ++ [u], c.task? = some v.taskName := by
  intro us
  induction us with
  | nil =>
    intro completed done e h
    rw [passAux_nil] at h
    exact absurd h (by simp)
  | cons u rest ih =>
    intro completed done e h
    cases hcu : completed u.taskName with
    | true =>
      rw [passAux_cons_skip hcu] at h ⊢
      rcases ih completed done e h with ⟨pre, v, post, heq, herr, hlog⟩
      refine ⟨u :: pre, v, post, by rw [heq]; rfl, herr, fun c hc => ?_⟩
      rcases hlog c hc with ⟨w, hw, hcw⟩
      exact ⟨w, by
        rcases List.mem_append.mp hw with hw | hw
        · exact List.mem_append.mpr (Or.inl (List.mem_cons_of_mem u hw))
        · exact List.mem_append.mpr (Or.inr hw), hcw⟩
    | false =>
      rcases hci : checkInspect env i u with ⟨res, log0⟩
      cases res with
      | error e0 =>
        rw [passAux_cons_err hcu hci] at h ⊢
        have he : e0 = e := Except.error.inj h
        subst he
        refine ⟨[], u, rest, rfl, by rw [hci], fun c hc => ?_⟩
        refine ⟨u, by simp, ?_⟩
        exact (checkInspect_log_task c (by rw [hci]; exact hc)).2
      | ok complete =>
        rw [passAux_cons_ok hcu hci] at h ⊢
        rcases ih _ _ e h with ⟨pre, v, post, heq, herr, hlog⟩
        refine ⟨u :: pre, v, post, by rw [heq]; rfl, herr, fun c hc => ?_⟩
        rcases List.mem_append.mp hc with hc | hc
        · exact ⟨u, by simp,
            (checkInspect_log_task c (by rw [hci]; exact hc)).2⟩
        · rcases hlog c hc with ⟨w, hw, hcw⟩
          refine ⟨w, ?_, hcw⟩
          rcases List.mem_append.mp hw with hw | hw
          · exact List.mem_append.mpr (Or.inl (List.mem_cons_of_mem u hw))
          · exact List.mem_append.mpr (Or.inr hw)

/-- An inspect call in a pass's log forces the pass either to fail or to
leave that task completed. -/
theorem passAux_inspect_result {env : ROEnv} {i : Nat} :
    ∀ (us : List unit) (completed : String → Bool) (done : Bool)
      (j : Nat) (n : String),
      Call.inspectC j n ∈ (passAux env i us completed done).log →
      j = i ∧ ((∃ e, (passAux env i us completed done).res = .error e) ∨
        (passAux env i us completed done).completed n = true) := by
  intro us
  induction us with
  | nil =>
    intro completed done j n h
    rw [passAux_nil] at h
    exact absurd h (by simp)
  | cons u rest ih =>
    intro completed done j n h
    cases hcu : completed u.taskName with
    | true =>
      rw [passAux_cons_skip hcu] at h ⊢
      exact ih completed done j n h
    | false =>
      rcases hci : checkInspect env i u with ⟨res, log0⟩
      cases res with
      | error e0 =>
        rw [passAux_cons_err hcu hci] at h ⊢
        have := checkInspect_log_task (Call.inspectC j n) (by rw [hci]; exact h)
        exact ⟨by simpa [Call.iter] using this.1, Or.inl ⟨e0, rfl⟩⟩
      | ok complete =>
        rw [passAux_cons_ok hcu hci] at h ⊢
        rcases List.mem_append.mp h with h | h
        · have htask := checkInspect_log_task (Call.inspectC j n)
            (by rw [hci]; exact h)
          have hj : j = i := by simpa [Call.iter] using htask.1
          have hn : n = u.taskName := by
            simpa [Call.task?] using htask.2
          have hres := checkInspect_inspect_mem (by rw [hci]; exact h)
          rcases hres with hok | ⟨e, herr⟩
          · have hcomplete : complete = true := by
              rw [hci] at hok
              exact Except.ok.inj hok
            refine ⟨hj, Or.inr ?_⟩
            subst hcomplete
            refine passAux_mono _ _ _ _ ?_
            simp [hn]
          · rw [hci] at herr
            exact absurd herr (by simp)
        · rcases ih _ _ j n h with ⟨hj, hres⟩
          exact ⟨hj, hres⟩

/-- A pass makes at most one inspect call per task name. -/
theorem passAux_inspect_count {env : ROEnv} {i : Nat} :
    ∀ (us : List unit) (completed : String → Bool) (done : Bool) (n : String),
      (passAux env i us completed done).log.countP (Call.isInspectOf n) ≤ 1 := by
  intro us
  induction us with
  | nil =>
    intro completed done n
    rw [passAux_nil]
    simp
  | cons u rest ih =>
    intro completed done n
    cases hcu : completed u.taskName with
    | true =>
      rw [passAux_cons_skip hcu]
      exact ih completed done n
    | false =>
      rcases hci : checkInspect env i u with ⟨res, log0⟩
      cases res with
      | error e0 =>
        rw [passAux_cons_err hcu hci]
        have := @checkInspect_count env i u n
        rw [hci] at this
        exact this
      | ok complete =>
        rw [passAux_cons_ok hcu hci]
        rw [List.countP_append]
        by_cases hmem : ∃ j, Call.inspectC j n ∈ log0
        · rcases hmem with ⟨j, hj⟩
          have hn : n = u.taskName := by
            have := (checkInspect_log_task (Call.inspectC j n)
              (by rw [hci]; exact hj)).2
            simpa [Call.task?] using this
          have hres := checkInspect_inspect_mem (by rw [hci]; exact hj)
          have hcomplete : complete = true := by
            rcases hres with hok | ⟨e, herr⟩
            · rw [hci] at hok; exact Except.ok.inj hok
            · rw [hci] at herr; exact absurd herr (by simp)
          have hzero : (passAux env i rest
              (fun m => if m = u.taskName then complete else completed m)
              (if !complete && done then false else done)).log.countP
                (Call.isInspectOf n) = 0 := by
            rw [List.countP_eq_zero]
            intro c hc
            have hnone := passAux_no_calls_completed rest _ _ n
              (by subst hcomplete; simp [hn]) c hc
            cases c with
            | inspectC k m =>
              simp only [Call.isInspectOf]
              have : m ≠ n := by
                intro hmn
                exact hnone (by simp [Call.task?, hmn])
              simp [this]
            | resolveC k m => simp [Call.isInspectOf]
            | renderC k m => simp [Call.isInspectOf]
            | waitC k => simp [Call.isInspectOf]
          rw [hzero]
          have := @checkInspect_count env i u n
          rw [hci] at this
          simpa using this
        · have hzero : log0.countP (Call.isInspectOf n) = 0 := by
            rw [List.countP_eq_zero]
            intro c hc
            cases c with
            | inspectC k m =>
              simp only [Call.isInspectOf]
              have : m ≠ n := by
                intro hmn
                exact hmem ⟨k, hmn ▸ hc⟩
              simp [this]
            | resolveC k m => simp [Call.isInspectOf]
            | renderC k m => simp [Call.isInspectOf]
            | waitC k => simp [Call.isInspectOf]
          rw [hzero]
          simpa using ih _ _ n

/-- Unfolding of `runAux` when the pass fails: `Run` returns that error
immediately. -/
theorem runAux_pass_err {env : ROEnv} {units : List unit}
    {completed : String → Bool} {i fuel : Nat} {e : String}
    (h : (passAux env i units completed true).res = .error e) :
    runAux env units completed i (fuel + 1) =
      ⟨.err e, (passAux env i units completed true).completed, i + 1,
       (passAux env i units completed true).log⟩ := by
  simp only [runAux]
  rcases hp : passAux env i units completed true with ⟨res, comp, log⟩
  rw [hp] at h
  simp only at h
  subst h
  rfl

/-- Unfolding of `runAux` when the pass reports all units done: `Run`
returns nil in that same iteration without waiting again. -/
theorem runAux_done {env : ROEnv} {units : List unit}
    {completed : String → Bool} {i fuel : Nat}
    (h : (passAux env i units completed true).res = .ok true) :
    runAux env units completed i (fuel + 1) =
      ⟨.ok, (passAux env i units completed true).completed, i + 1,
       (passAux env i units completed true).log⟩ := by
  simp only [runAux]
  rcases hp : passAux env i units completed true with ⟨res, comp, log⟩
  rw [hp] at h
  simp only at h
  subst h
  rfl

/-- Unfolding of `runAux` when the pass is not done and the wait succeeds:
the loop continues into the next iteration. -/
theorem runAux_wait_ok {env : ROEnv} {units : List unit}
    {completed : String → Bool} {i fuel : Nat}
    (h : (passAux env i units completed true).res = .ok false)
    (hw : env.wait i = .ok) :
    runAux env units completed i (fuel + 1) =
      ⟨(runAux env units (passAux env i units completed true).completed
          (i + 1) fuel).outcome,
       (runAux env units (passAux env i units completed true).completed
          (i + 1) fuel).completed,
       (runAux env units (passAux env i units completed true).completed
          (i + 1) fuel).passes,
       (passAux env i units completed true).log ++ Call.waitC i ::
         (runAux env units (passAux env i units completed true).completed
            (i + 1) fuel).log⟩ := by
  simp only [runAux]
  rcases hp : passAux env i units completed true with ⟨res, comp, log⟩
  rw [hp] at h
  simp only at h
  subst h
  rw [hw]
  rfl

/-- Unfolding of `runAux` when the pass is not done and the wait fails: the
watcher error is returned. -/
theorem runAux_wait_fail {env : ROEnv} {units : List unit}
    {completed : String → Bool} {i fuel : Nat} {e : String}
    (h : (passAux env i units completed true).res = .ok false)
    (hw : env.wait i = .fail e) :
    runAux env units completed i (fuel + 1) =
      ⟨.err e, (passAux env i units completed true).completed, i + 1,
       (passAux env i units completed true).log ++ [Call.waitC i]⟩ := by
  simp only [runAux]
  rcases hp : passAux env i units completed true with ⟨res, comp, log⟩
  rw [hp] at h
  simp only at h
  subst h
  rw [hw]
  rfl

/-- Unfolding of `runAux` when the pass is not done and the context is
cancelled at the wait: `ctx.Err()` is returned verbatim and nothing else
runs. -/
theorem runAux_wait_cancel {env : ROEnv} {units : List unit}
    {completed : String → Bool} {i fuel : Nat} {e : String}
    (h : (passAux env i units completed true).res = .ok false)
    (hw : env.wait i = .cancel e) :
    runAux env units completed i (fuel + 1) =
      ⟨.err e, (passAux env i units completed true).completed, i + 1,
       (passAux env i units completed true).log ++ [Call.waitC i]⟩ := by
  simp only [runAux]
  rcases hp : passAux env i units completed true with ⟨res, comp, log⟩
  rw [hp] at h
  simp only at h
  subst h
  rw [hw]
  rfl

/-- A log with no calls about task `n` has no inspect calls counted for
`n`. -/
theorem countP_inspect_zero {log : List Call} {n : String}
    (h : ∀ c ∈ log, c.task? ≠ some n) :
    log.countP (Call.isInspectOf n) = 0 := by
  rw [List.countP_eq_zero]
  intro c hc
  cases c with
  | inspectC k m =>
    have hm : m ≠ n := fun hmn => h _ hc (by simp [Call.task?, hmn])
    simp [Call.isInspectOf, hm]
  | resolveC k m => simp [Call.isInspectOf]
  | renderC k m => simp [Call.isInspectOf]
  | waitC k => simp [Call.isInspectOf]

/-- A positive inspect count for `n` exhibits an inspect call for `n`. -/
theorem inspect_mem_of_countP_pos {log : List Call} {n : String}
    (h : 0 < log.countP (Call.isInspectOf n)) :
    ∃ j, Call.inspectC j n ∈ log := by
  rcases List.countP_pos_iff.mp h with ⟨c, hc, hp⟩
  cases c with
  | inspectC k m =>
    have hm : m = n := by simpa [Call.isInspectOf] using hp
    exact ⟨k, hm ▸ hc⟩
  | resolveC k m => simp [Call.isInspectOf] at hp
  | renderC k m => simp [Call.isInspectOf] at hp
  | waitC k => simp [Call.isInspectOf] at hp

/-- The run makes no calls at all before its starting iteration, and every
call of the run is either a wait or comes from `checkInspect` on one of the
controller's units. -/
theorem runAux_log_mem {env : ROEnv} {units : List unit} :
    ∀ (fuel : Nat) (completed : String → Bool) (i : Nat) (c : Call),
      c ∈ (runAux env units completed i fuel).log →
      (∃ j, i ≤ j ∧ c = .waitC j) ∨
      (∃ j u, i ≤ j ∧ u ∈ units ∧ c ∈ (checkInspect env j u).2) := by
  intro fuel
  induction fuel with
  | zero =>
    intro completed i c hc
    exact absurd hc (by simp [runAux])
  | succ fuel ih =>
    intro completed i c hc
    rcases hres : (passAux env i units completed true).res with e | done
    · rw [runAux_pass_err hres] at hc
      rcases passAux_log_mem units completed true c hc with ⟨u, hu, hcu⟩
      exact Or.inr ⟨i, u, le_refl i, hu, hcu⟩
    · cases done with
      | true =>
        rw [runAux_done hres] at hc
        rcases passAux_log_mem units completed true c hc with ⟨u, hu, hcu⟩
        exact Or.inr ⟨i, u, le_refl i, hu, hcu⟩
      | false =>
        cases hw : env.wait i with
        | ok =>
          rw [runAux_wait_ok hres hw] at hc
          rcases List.mem_append.mp hc with hc | hc
          · rcases passAux_log_mem units completed true c hc with ⟨u, hu, hcu⟩
            exact Or.inr ⟨i, u, le_refl i, hu, hcu⟩
          · rcases List.mem_cons.mp hc with rfl | hc
            · exact Or.inl ⟨i, le_refl i, rfl⟩
            · rcases ih _ (i + 1) c hc with ⟨j, hj, rfl⟩ | ⟨j, u, hj, hu, hcu⟩
              · exact Or.inl ⟨j, le_trans (Nat.le_succ i) hj, rfl⟩
              · exact Or.inr ⟨j, u, le_trans (Nat.le_succ i) hj, hu, hcu⟩
        | fail e =>
          rw [runAux_wait_fail hres hw] at hc
          rcases List.mem_append.mp hc with hc | hc
          · rcases passAux_log_mem units completed true c hc with ⟨u, hu, hcu⟩
            exact Or.inr ⟨i, u, le_refl i, hu, hcu⟩
          · rcases List.mem_singleton.mp hc with rfl
            exact Or.inl ⟨i, le_refl i, rfl⟩
        | cancel e =>
          rw [runAux_wait_cancel hres hw] at hc
          rcases List.mem_append.mp hc with hc | hc
          · rcases passAux_log_mem units completed true c hc with ⟨u, hu, hcu⟩
            exact Or.inr ⟨i, u, le_refl i, hu, hcu⟩
          · rcases List.mem_singleton.mp hc with rfl
            exact Or.inl ⟨i, le_refl i, rfl⟩

/-- Once a task is completed, the rest of the run never makes another call
about it. -/
theorem runAux_no_calls_completed {env : ROEnv} {units : List unit} :
    ∀ (fuel : Nat) (completed : String → Bool) (i : Nat) (n : String),
      completed n = true →
      ∀ c ∈ (runAux env units completed i fuel).log, c.task? ≠ some n := by
  intro fuel
  induction fuel with
  | zero =>
    intro completed i n _ c hc
    exact absurd hc (by simp [runAux])
  | succ fuel ih =>
    intro completed i n hn c hc
    rcases hres : (passAux env i units completed true).res with e | done
    · rw [runAux_pass_err hres] at hc
      exact passAux_no_calls_completed units completed true n hn c hc
    · cases done with
      | true =>
        rw [runAux_done hres] at hc
        exact passAux_no_calls_completed units completed true n hn c hc
      | false =>
        cases hw : env.wait i with
        | ok =>
          rw [runAux_wait_ok hres hw] at hc
          rcases List.mem_append.mp hc with hc | hc
          · exact passAux_no_calls_completed units completed true n hn c hc
          · rcases List.mem_cons.mp hc with rfl | hc
            · simp [Call.task?]
            · exact ih _ (i + 1) n
                (passAux_mono units completed true n hn) c hc
        | fail e =>
          rw [runAux_wait_fail hres hw] at hc
          rcases List.mem_append.mp hc with hc | hc
          · exact passAux_no_calls_completed units completed true n hn c hc
          · rcases List.mem_singleton.mp hc with rfl
            simp [Call.task?]
        | cancel e =>
          rw [runAux_wait_cancel hres hw] at hc
          rcases List.mem_append.mp hc with hc | hc
          · exact passAux_no_calls_completed units completed true n hn c hc
          · rcases List.mem_singleton.mp hc with rfl
            simp [Call.task?]

/-- Every call the run makes from iteration `i` on happens at iteration `i`
or later. -/
theorem runAux_iter_ge {env : ROEnv} {units : List unit} :
    ∀ (fuel : Nat) (completed : String → Bool) (i : Nat),
      ∀ c ∈ (runAux env units completed i fuel).log, i ≤ c.iter := by
  intro fuel
  induction fuel with
  | zero =>
    intro completed i c hc
    exact absurd hc (by simp [runAux])
  | succ fuel ih =>
    intro completed i c hc
    rcases hres : (passAux env i units completed true).res with e | done
    · rw [runAux_pass_err hres] at hc
      exact le_of_eq (passAux_iter c hc).symm
    · cases done with
      | true =>
        rw [runAux_done hres] at hc
        exact le_of_eq (passAux_iter c hc).symm
      | false =>
        cases hw : env.wait i with
        | ok =>
          rw [runAux_wait_ok hres hw] at hc
          rcases List.mem_append.mp hc with hc | hc
          · exact le_of_eq (passAux_iter c hc).symm
          · rcases List.mem_cons.mp hc with rfl | hc
            · exact le_refl i
            · exact le_trans (Nat.le_succ i) (ih _ (i + 1) c hc)
        | fail e =>
          rw [runAux_wait_fail hres hw] at hc
          rcases List.mem_append.mp hc with hc | hc
          · exact le_of_eq (passAux_iter c hc).symm
          · rcases List.mem_singleton.mp hc with rfl
            exact le_refl i
        | cancel e =>
          rw [runAux_wait_cancel hres hw] at hc
          rcases List.mem_append.mp hc with hc | hc
          · exact le_of_eq (passAux_iter c hc).symm
          · rcases List.mem_singleton.mp hc with rfl
            exact le_refl i

/-- Over a whole run, `InspectTask` is called at most once per task name. -/
theorem runAux_inspect_count {env : ROEnv} {units : List unit} :
    ∀ (fuel : Nat) (completed : String → Bool) (i : Nat) (n : String),
      (runAux env units completed i fuel).log.countP (Call.isInspectOf n) ≤ 1 := by
  intro fuel
  induction fuel with
  | zero =>
    intro completed i n
    simp [runAux]
  | succ fuel ih =>
    intro completed i n
    rcases hres : (passAux env i units completed true).res with e | done
    · rw [runAux_pass_err hres]
      exact passAux_inspect_count units completed true n
    · cases done with
      | true =>
        rw [runAux_done hres]
        exact passAux_inspect_count units completed true n
      | false =>
        cases hw : env.wait i with
        | ok =>
          rw [runAux_wait_ok hres hw]
          have hcons : List.countP (Call.isInspectOf n) (Call.waitC i ::
              (runAux env units (passAux env i units completed true).completed
                (i + 1) fuel).log) =
              List.countP (Call.isInspectOf n)
                (runAux env units (passAux env i units completed true).completed
                  (i + 1) fuel).log := by
            rw [List.countP_cons]
            simp [Call.isInspectOf]
          rw [List.countP_append, hcons]
          rcases Nat.eq_zero_or_pos
            ((passAux env i units completed true).log.countP
              (Call.isInspectOf n)) with hz | hpos
          · rw [hz]
            simpa using ih _ (i + 1) n
          · rcases inspect_mem_of_countP_pos hpos with ⟨j, hj⟩
            rcases passAux_inspect_result units completed true j n hj
              with ⟨hji, herr | hcompl⟩
            · rcases herr with ⟨e, he⟩
              rw [hres] at he
              exact absurd he (by simp)
            · have hz : (runAux env units
                  (passAux env i units completed true).completed (i + 1)
                  fuel).log.countP (Call.isInspectOf n) = 0 :=
                countP_inspect_zero
                  (runAux_no_calls_completed fuel _ (i + 1) n hcompl)
              rw [hz, add_zero]
              exact passAux_inspect_count units completed true n
        | fail e =>
          rw [runAux_wait_fail hres hw]
          rw [List.countP_append]
          have hwc : ([Call.waitC i]).countP (Call.isInspectOf n) = 0 := rfl
          rw [hwc, add_zero]
          exact passAux_inspect_count units completed true n
        | cancel e =>
          rw [runAux_wait_cancel hres hw]
          rw [List.countP_append]
          have hwc : ([Call.waitC i]).countP (Call.isInspectOf n) = 0 := rfl
          rw [hwc, add_zero]
          exact passAux_inspect_count units completed true n

/-- Once `InspectTask` has been called for a task, no later iteration makes
any call about that task: the inspect call is the task's last activity. -/
theorem runAux_inspect_last {env : ROEnv} {units : List unit} :
    ∀ (fuel : Nat) (completed : String → Bool) (i i₀ : Nat) (n : String),
      Call.inspectC i₀ n ∈ (runAux env units completed i fuel).log →
      ∀ c ∈ (runAux env units completed i fuel).log,
        c.task? = some n → c.iter ≤ i₀ := by
  intro fuel
  induction fuel with
  | zero =>
    intro completed i i₀ n hins
    exact absurd hins (by simp [runAux])
  | succ fuel ih =>
    intro completed i i₀ n hins c hc htask
    rcases hres : (passAux env i units completed true).res with e | done
    · rw [runAux_pass_err hres] at hins hc
      have hi₀ : i₀ = i := by
        simpa [Call.iter] using passAux_iter _ hins
      have hci : c.iter = i := passAux_iter c hc
      rw [hci, hi₀]
    · cases done with
      | true =>
        rw [runAux_done hres] at hins hc
        have hi₀ : i₀ = i := by
          simpa [Call.iter] using passAux_iter _ hins
        have hci : c.iter = i := passAux_iter c hc
        rw [hci, hi₀]
      | false =>
        cases hw : env.wait i with
        | ok =>
          rw [runAux_wait_ok hres hw] at hins hc
          rcases List.mem_append.mp hins with hins | hins
          · have hi₀ : i₀ = i := by
              simpa [Call.iter] using passAux_iter _ hins
            rcases passAux_inspect_result units completed true i₀ n hins
              with ⟨_, herr | hcompl⟩
            · rcases herr with ⟨e, he⟩
              rw [hres] at he
              exact absurd he (by simp)
            · rcases List.mem_append.mp hc with hc | hc
              · rw [passAux_iter c hc, hi₀]
              · rcases List.mem_cons.mp hc with rfl | hc
                · exact absurd htask (by simp [Call.task?])
                · exact absurd htask
                    (runAux_no_calls_completed fuel _ (i + 1) n hcompl c hc)
          · rcases List.mem_cons.mp hins with heq | hins
            · exact absurd (congrArg Call.task? heq) (by simp [Call.task?])
            · have hi₀ : i + 1 ≤ i₀ := by
                simpa [Call.iter] using runAux_iter_ge fuel _ (i + 1) _ hins
              rcases List.mem_append.mp hc with hc | hc
              · rw [passAux_iter c hc]
                exact le_trans (Nat.le_succ i) hi₀
              · rcases List.mem_cons.mp hc with rfl | hc
                · exact le_trans (Nat.le_succ i) hi₀
                · exact ih _ (i + 1) i₀ n hins c hc htask
        | fail e =>
          rw [runAux_wait_fail hres hw] at hins hc
          rcases List.mem_append.mp hins with hins | hins
          · have hi₀ : i₀ = i := by
              simpa [Call.iter] using passAux_iter _ hins
            rcases List.mem_append.mp hc with hc | hc
            · rw [passAux_iter c hc, hi₀]
            · rcases List.mem_singleton.mp hc with rfl
              exact absurd htask (by simp [Call.task?])
          · rcases List.mem_singleton.mp hins with h
            cases h
        | cancel e =>
          rw [runAux_wait_cancel hres hw] at hins hc
          rcases List.mem_append.mp hins with hins | hins
          · have hi₀ : i₀ = i := by
              simpa [Call.iter] using passAux_iter _ hins
            rcases List.mem_append.mp hc with hc | hc
            · rw [passAux_iter c hc, hi₀]
            · rcases List.mem_singleton.mp hc with rfl
              exact absurd htask (by simp [Call.task?])
          · rcases List.mem_singleton.mp hins with h
            cases h

/-- Correctness of the outer loop: absent divergence (fuel exhaustion of
the model), the run ends in `ok` exactly when every unit's task is marked
completed, and an `ok` run performs exactly one wait fewer than it runs
passes — it never blocks again after the pass in which the last unit
completed. -/
theorem runAux_ok_iff {env : ROEnv} {units : List unit}
    (hnd : (units.map unit.taskName).Nodup) :
    ∀ (fuel : Nat) (completed : String → Bool) (i : Nat),
      (runAux env units completed i fuel).outcome ≠ .diverge →
      (((runAux env units completed i fuel).outcome = .ok ↔
        ∀ u ∈ units,
          (runAux env units completed i fuel).completed u.taskName = true) ∧
       ((runAux env units completed i fuel).outcome = .ok →
        (runAux env units completed i fuel).log.countP Call.isWait + 1 + i =
          (runAux env units completed i fuel).passes)) := by
  intro fuel
  induction fuel with
  | zero =>
    intro completed i hdv
    exact absurd rfl hdv
  | succ fuel ih =>
    intro completed i hdv
    rcases hres : (passAux env i units completed true).res with e | done
    · rw [runAux_pass_err hres]
      constructor
      · refine iff_of_false (by simp) (fun hall => ?_)
        rcases passAux_err_incomplete units completed true e hres
          with ⟨u, hu, hcu⟩
        have h2 : (passAux env i units completed true).completed
            u.taskName = true := hall u hu
        rw [h2] at hcu
        cases hcu
      · intro h
        exact absurd h (by simp)
    · cases done with
      | true =>
        rw [runAux_done hres]
        constructor
        · exact iff_of_true rfl (passAux_done_true units completed true hres).2
        · intro _
          have hz : List.countP Call.isWait
              (passAux env i units completed true).log = 0 :=
            List.countP_eq_zero.mpr (fun c hc => by
              rw [passAux_no_wait c hc]; simp)
          dsimp only
          rw [hz]
          omega
      | false =>
        cases hw : env.wait i with
        | ok =>
          rw [runAux_wait_ok hres hw]
          rw [runAux_wait_ok hres hw] at hdv
          have hdv' : (runAux env units
              (passAux env i units completed true).completed (i + 1)
              fuel).outcome ≠ .diverge := hdv
          rcases ih _ (i + 1) hdv' with ⟨hiff, hcount⟩
          constructor
          · exact hiff
          · intro hok
            have hz : List.countP Call.isWait
                (passAux env i units completed true).log = 0 :=
              List.countP_eq_zero.mpr (fun c hc => by
                rw [passAux_no_wait c hc]; simp)
            have hstep : List.countP Call.isWait (Call.waitC i ::
                (runAux env units
                  (passAux env i units completed true).completed (i + 1)
                  fuel).log) =
                List.countP Call.isWait (runAux env units
                  (passAux env i units completed true).completed (i + 1)
                  fuel).log + 1 := by
              rw [List.countP_cons]
              simp [Call.isWait]
            have hrec := hcount (by exact hok)
            dsimp only
            rw [List.countP_append, hstep, hz]
            omega
        | fail e =>
          rw [runAux_wait_fail hres hw]
          constructor
          · refine iff_of_false (by simp) (fun hall => ?_)
            rcases passAux_done_false units completed true hres hnd
              with hd | ⟨u, hu, hcu⟩
            · cases hd
            · have h2 : (passAux env i units completed true).completed
                  u.taskName = true := hall u hu
              rw [h2] at hcu
              cases hcu
          · intro h
            exact absurd h (by simp)
        | cancel e =>
          rw [runAux_wait_cancel hres hw]
          constructor
          · refine iff_of_false (by simp) (fun hall => ?_)
            rcases passAux_done_false units completed true hres hnd
              with hd | ⟨u, hu, hcu⟩
            · cases hd
            · have h2 : (passAux env i units completed true).completed
                  u.taskName = true := hall u hu
              rw [h2] at hcu
              cases hcu
          · intro h
            exact absurd h (by simp)

/-- C1: an incomplete resolution never converges, in either controller. For
the ReadOnly run: if task `n`'s resolve at iteration `i` is incomplete, the
whole run log contains no render and no `InspectTask` call for `n` at `i`
(the ReadOnly controller makes no `InitWork`/`ApplyWork` calls and appends
no Events at all). For a ReadWrite cycle: an incomplete resolution produces
no emission, no Event and no call besides the resolve itself. -/
theorem incomplete_never_converges :
    (∀ (env : ROEnv) (units : List unit) (fuel i : Nat) (n : String)
        (ev : RenderEvent),
      env.resolve i n = .ok ev → ev.Complete = false →
      Call.renderC i n ∉ (run env units fuel).log ∧
      Call.inspectC i n ∉ (run env units fuel).log) ∧
    (∀ (env : RWEnv) (t : String) (i : Nat) (ev : RenderEvent),
      env.resolve i = .ok ev → ev.Complete = false →
      rwCycle env t i = ⟨[], [], [.resolveC]⟩) := by
  constructor
  · intro env units fuel i n ev hr hc
    constructor
    · intro hmem
      rcases runAux_log_mem fuel _ 0 _ hmem
        with ⟨j, _, heq⟩ | ⟨j, u, _, hu, hcu⟩
      · cases heq
      · have htask := checkInspect_log_task _ hcu
        have hij : i = j := by simpa [Call.iter] using htask.1
        have hn : n = u.taskName := by simpa [Call.task?] using htask.2
        rcases checkInspect_render_complete (Or.inl hcu) with ⟨ev', hr', hc'⟩
        rw [← hn, ← hij, hr] at hr'
        rw [← Except.ok.inj hr', hc] at hc'
        cases hc'
    · intro hmem
      rcases runAux_log_mem fuel _ 0 _ hmem
        with ⟨j, _, heq⟩ | ⟨j, u, _, hu, hcu⟩
      · cases heq
      · have htask := checkInspect_log_task _ hcu
        have hij : i = j := by simpa [Call.iter] using htask.1
        have hn : n = u.taskName := by simpa [Call.task?] using htask.2
        rcases checkInspect_render_complete (Or.inr hcu) with ⟨ev', hr', hc'⟩
        rw [← hn, ← hij, hr] at hr'
        rw [← Except.ok.inj hr', hc] at hc'
        cases hc'
  · intro env t i ev hr hc
    exact rwCycle_incomplete t hr hc

/-- A ReadOnly environment whose resolutions never complete and whose
context is cancelled at the first wait. -/
def roCancelEnv : ROEnv :=
  { resolve := fun _ _ => .ok ⟨false, ""⟩
    render := fun _ _ => .ok ""
    inspect := fun _ _ => none
    wait := fun _ => WaitOutcome.cancel "context canceled" }

/-- Witness for C1: under a never-completing resolver, the run renders
nothing. -/
theorem incomplete_never_converges_witness :
    Call.renderC 0 "a" ∉ (run roCancelEnv [⟨"a"⟩] 2).log :=
  (incomplete_never_converges.1 roCancelEnv [⟨"a"⟩] 2 0 "a" ⟨false, ""⟩
    rfl rfl).1

/-- C2: a non-diverging ReadOnly `Run` with duplicate-free task names
returns nil exactly when every unit has been marked completed (inspected),
and a nil-returning run waits exactly once fewer than its number of outer
iterations: it returns in the same iteration the last unit completes,
without blocking on the watch engine again. -/
theorem run_ok_iff (env : ROEnv) (units : List unit) (fuel : Nat)
    (hnd : (units.map unit.taskName).Nodup)
    (hdv : (run env units fuel).outcome ≠ .diverge) :
    ((run env units fuel).outcome = .ok ↔
      ∀ u ∈ units, (run env units fuel).completed u.taskName = true) ∧
    ((run env units fuel).outcome = .ok →
      (run env units fuel).log.countP Call.isWait + 1 =
        (run env units fuel).passes) := by
  unfold run at hdv ⊢
  rcases runAux_ok_iff hnd fuel (fun _ => false) 0 hdv with ⟨h1, h2⟩
  refine ⟨h1, fun hok => ?_⟩
  have := h2 hok
  omega

/-- A ReadOnly environment where task "a" completes at iteration 0 and task
"b" only at iteration 1. -/
def roTwoStepEnv : ROEnv :=
  { resolve := fun i n =>
      if n = "a" then .ok ⟨true, "a data"⟩
      else .ok ⟨decide (1 ≤ i), "b data"⟩
    render := fun _ _ => .ok "rendered"
    inspect := fun _ _ => none
    wait := fun _ => WaitOutcome.ok }

/-- Witness for C2: with "a" completing at iteration 0 and "b" at 1, the
run's success is equivalent to both being completed. -/
theorem run_ok_iff_witness :
    (run roTwoStepEnv [⟨"a"⟩, ⟨"b"⟩] 3).outcome = .ok ↔
      ∀ u ∈ ([⟨"a"⟩, ⟨"b"⟩] : List unit),
        (run roTwoStepEnv [⟨"a"⟩, ⟨"b"⟩] 3).completed u.taskName = true :=
  (run_ok_iff roTwoStepEnv [⟨"a"⟩, ⟨"b"⟩] 3 (by decide) (by decide)).1

/-- C5: when a unit's resolve, render or `InspectTask` fails during a
ReadOnly pass, the pass's error message contains that unit's task name, the
pass makes no call about any unit after the failing one, and `Run` returns
exactly that error immediately (in that same iteration). -/
theorem inspect_failure_aborts :
    (∀ (env : ROEnv) (i : Nat) (units : List unit)
        (completed : String → Bool) (done : Bool) (e : String),
      (passAux env i units completed done).res = .error e →
      ∃ pre u post, units = pre ++ u :: post ∧
        (∃ p q, e = p ++ u.taskName ++ q) ∧
        ∀ c ∈ (passAux env i units completed done).log,
          ∃ v ∈ pre ++ [u], c.task? = some v.taskName) ∧
    (∀ (env : ROEnv) (units : List unit) (completed : String → Bool)
        (i fuel : Nat) (e : String),
      (passAux env i units completed true).res = .error e →
      runAux env units completed i (fuel + 1) =
        ⟨.err e, (passAux env i units completed true).completed, i + 1,
         (passAux env i units completed true).log⟩) := by
  constructor
  · intro env i units completed done e h
    rcases passAux_err_struct units completed done e h
      with ⟨pre, u, post, heq, herr, hlog⟩
    exact ⟨pre, u, post, heq, checkInspect_err_contains herr, hlog⟩
  · intro env units completed i fuel e h
    exact runAux_pass_err h

/-- A ReadOnly environment whose resolver fails for every task. -/
def roFailEnv : ROEnv :=
  { resolve := fun _ _ => .error "connection refused"
    render := fun _ _ => .ok ""
    inspect := fun _ _ => none
    wait := fun _ => WaitOutcome.ok }

/-- Witness for C5: the first pass over tasks "a", "b" under a failing
resolver stops at a unit whose name the error message contains. -/
theorem inspect_failure_aborts_witness :
    ∃ pre u post, ([⟨"a"⟩, ⟨"b"⟩] : List unit) = pre ++ u :: post ∧
      (∃ p q,
        "error fetching template dependencies for task a: connection refused" =
          p ++ u.taskName ++ q) ∧
      ∀ c ∈ (passAux roFailEnv 0 [⟨"a"⟩, ⟨"b"⟩] (fun _ => false) true).log,
        ∃ v ∈ pre ++ [u], c.task? = some v.taskName :=
  inspect_failure_aborts.1 roFailEnv 0 [⟨"a"⟩, ⟨"b"⟩] (fun _ => false) true
    _ rfl

/-- C6: cancelling the shared context during a wait makes both controllers
stop with the cancellation error verbatim (never wrapped) within that same
wait-cycle, with no further Driver calls: the run's log ends at that wait
and the ReadWrite loop's log ends at that wait. -/
theorem cancellation_verbatim :
    (∀ (env : ROEnv) (units : List unit) (completed : String → Bool)
        (i fuel : Nat) (msg : String),
      env.wait i = .cancel msg →
      (passAux env i units completed true).res = .ok false →
      runAux env units completed i (fuel + 1) =
        ⟨.err msg, (passAux env i units completed true).completed, i + 1,
         (passAux env i units completed true).log ++ [.waitC i]⟩) ∧
    (∀ (env : RWEnv) (t : String) (i fuel : Nat) (msg : String),
      env.wait i = some msg →
      rwLoop env t i (fuel + 1) =
        ⟨(rwCycle env t i).emissions, (rwCycle env t i).events,
         (rwCycle env t i).calls ++ [.waitC], some msg⟩) :=
  ⟨fun _ _ _ _ _ _ hw hres => runAux_wait_cancel hres hw,
   fun _ t _ fuel _ hw => rwLoop_cancel t fuel hw⟩

/-- Witness for C6: cancelling during the first wait returns
"context canceled" verbatim. -/
theorem cancellation_verbatim_witness :
    (runAux roCancelEnv [⟨"a"⟩] (fun _ => false) 0 1).outcome =
      .err "context canceled" := by
  rw [cancellation_verbatim.1 roCancelEnv [⟨"a"⟩] (fun _ => false) 0 0
    "context canceled" rfl rfl]

/-- C7: during one ReadOnly run, `InspectTask` happens at most once per
task, and after a task's inspect call no later iteration resolves, renders
or inspects that task again. -/
theorem inspect_at_most_once (env : ROEnv) (units : List unit) (fuel : Nat)
    (n : String) :
    (run env units fuel).log.countP (Call.isInspectOf n) ≤ 1 ∧
    ∀ i₀, Call.inspectC i₀ n ∈ (run env units fuel).log →
      ∀ c ∈ (run env units fuel).log, c.task? = some n → c.iter ≤ i₀ := by
  unfold run
  exact ⟨runAux_inspect_count fuel _ 0 n,
    fun i₀ hins c hc ht => runAux_inspect_last fuel _ 0 i₀ n hins c hc ht⟩

/-- Witness for C7 at the two-task environment: task "a" is inspected at
most once over the whole run. -/
theorem inspect_at_most_once_witness :
    (run roTwoStepEnv [⟨"a"⟩, ⟨"b"⟩] 3).log.countP
      (Call.isInspectOf "a") ≤ 1 :=
  (inspect_at_most_once roTwoStepEnv [⟨"a"⟩, ⟨"b"⟩] 3 "a").1

end CTS
